import Mathlib

/-!
Shallow embedding of `gluex/jupyroot/treeview.py` (rjones30/jupyroot).

The embedding models the fill/cache/merge engine of the `treeview` class:
histogram-set registration (`declare_histograms`, `inspect_source`), the
cache probe / sequential scan / write-back of `fill_histograms`, the dask
chunk planner, the parallel worker `dask_treeplayer`, the reduction
combiner `dask_collector`, the grouped reduction loop, and the `get`
lookup.  Python dicts become ordered association lists, ROOT histograms
become an explicit accumulator datatype, side-effecting user fill
routines become functions returning `Except Unit` (an exception is
`.error ()`), and in-place mutation becomes explicit state passing.
-/

set_option autoImplicit false

namespace Jupyroot

/-- A row of a ROOT tree: the values of its leaves, in leaf order. -/
abbrev Row := List Int

/-- Accumulator payload: either an additive histogram (`TH1`, with an entry
count and bin contents) or an appendable row collection (`TTree`, with its
branch names, stored rows, and the current in-memory branch buffer that
`TTree.Fill` copies from). -/
inductive HData where
  | h1 (entries : Nat) (bins : List Int)
  | tree (fields : List String) (rows : List Row) (buffer : Row)
  deriving DecidableEq, Repr

/-- A ROOT accumulator object: a self-identifying name plus its payload. -/
structure Histo where
  name : String
  data : HData
  deriving DecidableEq, Repr

/-- Entry count of an accumulator (`GetEntries`). -/
def Histo.entriesCount (h : Histo) : Nat :=
  match h.data with
  | .h1 e _ => e
  | .tree _ rows _ => rows.length

/-- An ordered mapping from histogram name to accumulator, as produced by a
user `initfunc` and held under the `filling` / `filled` keys. -/
abbrev HMap := List (String × Histo)

/-- A user fill routine.  The first argument is what the code passes as the
first parameter: `Sum.inl ifile` for the built-in statistics set (which is
called with an integer file index), `Sum.inr row` for ordinary sets (which
are called with the tree positioned at the current row).  A Python
exception raised by the routine is `.error ()`; otherwise the updated
histogram mapping is returned. -/
abbrev FillFn := (Int ⊕ Row) → HMap → Except Unit HMap

/-- One entry of `treeview.histodefs`: the user constructor, fill routine,
inferred or declared leaf list (`none` models an absent `'leaves'` key),
and the `'filled'` / `'filling'` dictionaries (`filling = none` models an
absent `'filling'` key). -/
structure HistoDef where
  init : Unit → HMap
  fill : FillFn
  leaves : Option (List String)
  filled : HMap
  filling : Option HMap

/-- The `treeview.histodefs` dictionary: insertion-ordered mapping from set
name to definition. -/
abbrev Registry := List (String × HistoDef)

/-- Python-dict lookup on an ordered association list. -/
def dictGet {α : Type} (d : List (String × α)) (k : String) : Option α :=
  match d with
  | [] => none
  | (k', v) :: rest => if k' = k then some v else dictGet rest k

/-- Python-dict assignment: replace the value in place if the key exists,
otherwise append the new binding at the end (insertion order). -/
def dictSet {α : Type} (d : List (String × α)) (k : String) (v : α) :
    List (String × α) :=
  match d with
  | [] => [(k, v)]
  | (k', v') :: rest =>
      if k' = k then (k, v) :: rest else (k', v') :: dictSet rest k v

/-! ### inspect_source

`inspect_source` scans the textual source of a fill routine with the
regexes

  `def[\s]+([A-Za-z_][A-Za-z0-9_]*)[\s]*\([\s]*(ident)[\s]*,[\s]*(ident)[\s]*[,)]`

(anchored at the start, `re.match`) and
`[^A-Za-z0-9_](rowarg)\.(ident)` (`re.findall`).  Both are implemented
here directly on character lists. -/

/-- Python `\s`: space, tab, newline, carriage return, vertical tab, form
feed. -/
def pySpace (c : Char) : Bool :=
  c = ' ' || c = '\t' || c = '\n' || c = '\r' || c.toNat = 11 || c.toNat = 12

/-- Character class `[A-Za-z0-9_]` of the regexes. -/
def isVarChar (c : Char) : Bool :=
  ('A' ≤ c && c ≤ 'Z') || ('a' ≤ c && c ≤ 'z') || c.isDigit || c = '_'

/-- Leading character of an identifier: `[A-Za-z_]`. -/
def isVarStart (c : Char) : Bool :=
  ('A' ≤ c && c ≤ 'Z') || ('a' ≤ c && c ≤ 'z') || c = '_'

/-- Greedy match of `[A-Za-z_][A-Za-z0-9_]*` at the head of the input;
returns the identifier and the remaining characters. -/
def takeIdent (cs : List Char) : Option (List Char × List Char) :=
  match cs with
  | [] => none
  | c :: rest =>
      if isVarStart c then
        some (c :: rest.takeWhile isVarChar, rest.dropWhile isVarChar)
      else none

/-- The anchored header regex of `inspect_source`: on success returns the
matched function name (group 1) and the first parameter name (group 2,
the row argument). -/
def matchHeader (cs : List Char) : Option (String × String) :=
  match cs with
  | 'd' :: 'e' :: 'f' :: rest =>
      match rest with
      | [] => none
      | c :: rest2 =>
          if pySpace c then
            match takeIdent (rest2.dropWhile pySpace) with
            | none => none
            | some (fname, r1) =>
                match r1.dropWhile pySpace with
                | '(' :: r2 =>
                    match takeIdent (r2.dropWhile pySpace) with
                    | none => none
                    | some (arg1, r3) =>
                        match r3.dropWhile pySpace with
                        | ',' :: r4 =>
                            match takeIdent (r4.dropWhile pySpace) with
                            | none => none
                            | some (_, r5) =>
                                match r5.dropWhile pySpace with
                                | c2 :: _ =>
                                    if c2 = ',' || c2 = ')' then
                                      some (String.mk fname, String.mk arg1)
                                    else none
                                | [] => none
                        | _ => none
                | _ => none
          else none
  | _ => none

/-- Try the column regex `[^A-Za-z0-9_](rowarg)\.(ident)` at the current
position; on success returns the captured identifier and the input after
the match. -/
def matchColAt (rowarg : List Char) (cs : List Char) :
    Option (List Char × List Char) :=
  match cs with
  | [] => none
  | c :: rest =>
      if isVarChar c then none
      else if rowarg.isPrefixOf rest then
        match rest.drop rowarg.length with
        | '.' :: r2 => takeIdent r2
        | _ => none
      else none

/-- Left-to-right non-overlapping scan of `re.findall` for the column
regex; `fuel` bounds the number of positions examined. -/
def findColsAux (rowarg : List Char) : Nat → List Char → List (List Char)
  | 0, _ => []
  | _ + 1, [] => []
  | fuel + 1, c :: rest =>
      match matchColAt rowarg (c :: rest) with
      | some (v, r) => v :: findColsAux rowarg fuel r
      | none => findColsAux rowarg fuel rest

/-- Keep the first occurrence of each element (Python dict-key
deduplication). -/
def dedupKeys : List String → List String
  | [] => []
  | s :: rest => s :: (dedupKeys rest).filter (fun t => t ≠ s)

/-- Embedding of `treeview.inspect_source`: parse the header of the fill
routine's source; if it does not match, raise `ValueError` (`.error ()`);
otherwise collect the distinct columns accessed through the row
argument. -/
def inspect_source (source : String) : Except Unit (List String) :=
  match matchHeader source.toList with
  | none => .error ()
  | some (_, rowarg) =>
      .ok (dedupKeys (((findColsAux rowarg.toList source.toList.length
        source.toList)).map String.mk))

/-! ### declare_histograms -/

/-- A Python function object as the embedding sees it: its source text
(what `inspect.getsource` returns) and its semantics. -/
structure PyFun where
  src : String
  fn : FillFn

/-- Walk the constructor's mapping in insertion order counting entries
whose key equals the accumulator's self-reported name; `some n` means the
entry at position `n` is the first mismatch, `none` means all match. -/
def mismatchAt (n : Nat) : HMap → Option Nat
  | [] => none
  | (k, h) :: rest => if k = h.name then mismatchAt (n + 1) rest else some n

/-- Embedding of `treeview.declare_histograms`.  Returns the Python return
value (or a propagating exception) together with the registry after the
call.  On an identity mismatch the loop stops, prints an error, and
returns the count accumulated so far with the registry untouched.  On
success the definition is stored first, and only then is the `'leaves'`
key filled in, either from the explicit list or from `inspect_source`;
a `ValueError` from `inspect_source` propagates, leaving the freshly
stored definition without a `'leaves'` key. -/
def declare_histograms (reg : Registry) (setname : String)
    (initfunc : Unit → HMap) (fillfunc : PyFun) (leaves : List String) :
    Except Unit Nat × Registry :=
  match mismatchAt 0 (initfunc ()) with
  | some n => (.ok n, reg)
  | none =>
      let n := (initfunc ()).length
      let newdef : HistoDef :=
        { init := initfunc, fill := fillfunc.fn, leaves := none,
          filled := [], filling := none }
      if 0 < leaves.length then
        (.ok n, dictSet reg setname { newdef with leaves := some leaves })
      else
        match inspect_source fillfunc.src with
        | .ok ls => (.ok n, dictSet reg setname { newdef with leaves := some ls })
        | .error _ => (.error (), dictSet reg setname newdef)

/-! ### Session state and the built-in statistics set -/

/-- Session state of one `treeview` instance: the registry, the contents of
the durable save file (the cache, name-keyed; `Write` on an existing name
supersedes the old cycle, so lookup sees the newest object), the input
chain as a list of files each holding its rows, and whether a dask client
is configured. -/
structure TState where
  histodefs : Registry
  cache : List (String × Histo)
  chain : List (List Row)
  daskOn : Bool

/-- Name of the histogram set `fill_histograms` declares on every call. -/
def statsName : String := "fill_histograms statistics"

/-- Name of the statistics histogram inside that set. -/
def statsHName : String := "fill_histograms_stats"

/-- `TH1.Fill(x)`: bump the bin at `x` (out-of-range fills land in the
under/overflow bins, which are not stored here). -/
def binIncr (bins : List Int) (x : Int) : List Int :=
  if x < 0 then bins else bins.set x.toNat ((bins.getD x.toNat 0) + 1)

/-- `Fill` on an accumulator: bumps the entry count and the addressed bin
of a histogram; no-op on a tree (never reached). -/
def h1Fill (h : Histo) (x : Int) : Histo :=
  match h.data with
  | .h1 e bins => ⟨h.name, .h1 (e + 1) (binIncr bins x)⟩
  | .tree _ _ _ => h

/-- `fill_histograms_hinit`: one fresh statistics histogram with one bin
per file of the chain. -/
def statsInitF (nfiles : Nat) : Unit → HMap := fun _ =>
  [(statsHName, ⟨statsHName, .h1 0 (List.replicate nfiles 0)⟩)]

/-- `fill_histograms_hfill(ifile, histos)`: fills the statistics histogram
at the current file index.  A missing key would be a `KeyError`
(`.error ()`); the routine is only ever dispatched with a file index. -/
def statsFillF : FillFn := fun arg hs =>
  match arg with
  | .inl ifile =>
      match dictGet hs statsHName with
      | some h => .ok (dictSet hs statsHName (h1Fill h ifile))
      | none => .error ()
  | .inr _ => .error ()

/-- Source text of `fill_histograms_hfill` (unused: the statistics set is
declared with an explicit leaf list). -/
def statsSrc : String := "def fill_histograms_hfill(ifile, histos):"

/-! ### Cache probe (fill_histograms, lines 252-265) -/

/-- A set counts as cached when every histogram name its constructor
produces is present in the save file (the `GetTitle` probe succeeds). -/
def setIsCached (cache : List (String × Histo)) (hd : HistoDef) : Bool :=
  (hd.init ()).all fun kh => (dictGet cache kh.1).isSome

/-- Probe one definition: a cached set gets `filled := {}` and contributes
nothing; an uncached set additionally gets `filling := init()` and
contributes its histogram count to `ntofill`. -/
def probeDef (cache : List (String × Histo)) (hd : HistoDef) : HistoDef × Nat :=
  if setIsCached cache hd then ({ hd with filled := [] }, 0)
  else ({ hd with filled := [], filling := some (hd.init ()) }, (hd.init ()).length)

/-- Probe the whole registry in order, summing `ntofill`. -/
def probeR (cache : List (String × Histo)) : Registry → Registry × Nat
  | [] => ([], 0)
  | (k, hd) :: rest =>
      let p := probeDef cache hd
      let pr := probeR cache rest
      ((k, p.1) :: pr.1, p.2 + pr.2)

/-- Whether every definition carries a `'leaves'` key; a missing key is a
`KeyError` when the leaf-union dictionary is built. -/
def leavesPresent (reg : Registry) : Bool := reg.all fun kd => kd.2.leaves.isSome

/-! ### Sequential scan (fill_histograms, lines 266-285) -/

/-- Locate global row `n` of the chain: the containing file's index and the
row's data. -/
def fileOfRow : List (List Row) → Nat → Option (Nat × Row)
  | [], _ => none
  | f :: rest, n =>
      if n < f.length then some (0, f.getD n [])
      else (fileOfRow rest (n - f.length)).map fun p => (p.1 + 1, p.2)

/-- Total number of rows in the chain. -/
def totalRows (chain : List (List Row)) : Nat := (chain.map List.length).sum

/-- `GetTreeNumber()` for the currently loaded entry (`-1` before any
successful `GetEntry`). -/
def curFile (cur : Option (Nat × Row)) : Int :=
  match cur with
  | some p => Int.ofNat p.1
  | none => -1

/-- The currently loaded row's data (stale buffers model as `[]` when no
entry was ever loaded; claims never depend on this value). -/
def curRow (cur : Option (Nat × Row)) : Row :=
  match cur with
  | some p => p.2
  | none => []

/-- One row of the sequential scan: every definition with a `'filling'`
key gets its fill routine, the statistics set with the current file index,
the rest with the current row.  There is no try/except here: the first
exception aborts the walk, leaving the earlier definitions' updates in
place (Python mutates in place); the `Bool` reports the abort. -/
def applyDefsSeq (cur : Option (Nat × Row)) : Registry → Registry × Bool
  | [] => ([], false)
  | (k, hd) :: rest =>
      match hd.filling with
      | none =>
          let r := applyDefsSeq cur rest
          ((k, hd) :: r.1, r.2)
      | some f =>
          match (if k = statsName then hd.fill (.inl (curFile cur))
                 else hd.fill (.inr (curRow cur))) f with
          | .ok f' =>
              let r := applyDefsSeq cur rest
              ((k, { hd with filling := some f' }) :: r.1, r.2)
          | .error _ => ((k, hd) :: rest, true)

/-- State carried across rows of the sequential scan: the registry and the
currently loaded entry. -/
structure ScanSt where
  reg : Registry
  cur : Option (Nat × Row)

/-- Walk the given row indices in order.  Each step performs `GetEntry`
(recorded in the visit log; an out-of-range index leaves the loaded entry
unchanged) and then applies all pending fill routines; an exception stops
the scan at that row. -/
def seqScanRows (chain : List (List Row)) :
    List Nat → ScanSt → List Nat × ScanSt × Bool
  | [], st => ([], st, false)
  | n :: ns, st =>
      let cur' := match fileOfRow chain n with
                  | some p => some p
                  | none => st.cur
      let step := applyDefsSeq cur' st.reg
      if step.2 then ([n], ⟨step.1, cur'⟩, true)
      else
        let r := seqScanRows chain ns ⟨step.1, cur'⟩
        (n :: r.1, r.2)

/-! ### Write-back (fill_histograms, lines 315-325) -/

/-- Write every histogram of a filling set to the save file under its own
object name. -/
def cachePutAll (f : HMap) (cache : List (String × Histo)) :
    List (String × Histo) :=
  f.foldl (fun c kh => dictSet c kh.2.name kh.2) cache

/-- The write-back loop: every definition still holding a `'filling'` key
has its histograms written to the save file, moved to `'filled'`, and the
`'filling'` key deleted. -/
def writeBack : Registry → List (String × Histo) → Registry × List (String × Histo)
  | [], cache => ([], cache)
  | (k, hd) :: rest, cache =>
      match hd.filling with
      | none =>
          let r := writeBack rest cache
          ((k, hd) :: r.1, r.2)
      | some f =>
          let r := writeBack rest (cachePutAll f cache)
          ((k, { hd with filled := f, filling := none }) :: r.1, r.2)

/-! ### Partition planner (fill_histograms lines 293-303, dask_treeplayer
lines 590-593) -/

/-- Positive chunking: `[lst[j:j+c] for j in range(0, len(lst), c)]`. -/
def chunksPos {α : Type} (l : List α) (c : Nat) : List (List α) :=
  (List.range ((l.length + c - 1) / c)).map fun i => (l.drop (i * c)).take c

/-- `math.ceil(n / N)` for positive `N`. -/
def ceilDiv (n N : Nat) : Nat := (n + N - 1) / N

/-- Row-range slice bounds of `dask_treeplayer`:
`nstart = ceil(n/N) * i`, `nend = min(n, nstart + ceil(n/N))`. -/
def sliceBounds (n N i : Nat) : Nat × Nat :=
  let s := ceilDiv n N
  (s * i, min n (s * i + s))

/-- The row indices of sub-chunk `i` of `N` over an `n`-row source. -/
def rowSlice (n N i : Nat) : List Nat :=
  let b := sliceBounds n N i
  List.range' b.1 (b.2 - b.1)

/-- Build the chunk list of the dask branch: for `chunksize > 0`,
consecutive groups of files with the whole-source chunk `(0,1)`; for
`chunksize < 0`, one single-file task per file per sub-slice index.
Each entry is (starting file index, file list, (slice index, slice count)).
`chunksize = 0` never reaches this function. -/
def mkChunks (chain : List (List Row)) (chunksize : Int) :
    List (Nat × List (List Row) × (Nat × Nat)) :=
  if 0 < chunksize then
    let c := chunksize.toNat
    (List.range ((chain.length + c - 1) / c)).map
      fun i => (i * c, (chain.drop (i * c)).take c, (0, 1))
  else if chunksize < 0 then
    let N := (-chunksize).toNat
    ((List.range chain.length).map fun j =>
      (List.range N).map fun i => (j, (chain.drop j).take 1, (i, N))).flatten
  else []

/-! ### dask_treeplayer (lines 565-614) -/

/-- One row of the worker scan.  The statistics set is handled before the
`'filling'` membership test and outside the inner try/except: a missing
`'filling'` key or an exception there aborts the whole file (swallowed by
the outer except).  Every other pending definition's fill is wrapped in
try/except: an exception skips that single application and the walk
continues. -/
def applyDefsPar (j : Nat) (row : Row) : Registry → Registry × Bool
  | [] => ([], false)
  | (k, hd) :: rest =>
      if k = statsName then
        match hd.filling with
        | none => ((k, hd) :: rest, true)
        | some f =>
            match hd.fill (.inl (Int.ofNat j)) f with
            | .ok f' =>
                let r := applyDefsPar j row rest
                ((k, { hd with filling := some f' }) :: r.1, r.2)
            | .error _ => ((k, hd) :: rest, true)
      else
        match hd.filling with
        | none =>
            let r := applyDefsPar j row rest
            ((k, hd) :: r.1, r.2)
        | some f =>
            let hd' := match hd.fill (.inr row) f with
                       | .ok f' => { hd with filling := some f' }
                       | .error _ => hd
            let r := applyDefsPar j row rest
            ((k, hd') :: r.1, r.2)

/-- Walk the assigned row indices of one file; an abort keeps the partial
updates (in-place mutation) and stops the file. -/
def playRows (j : Nat) (file : List Row) : List Nat → Registry → Registry × Bool
  | [], reg => (reg, false)
  | n :: ns, reg =>
      let step := applyDefsPar j (file.getD n []) reg
      if step.2 then (step.1, true)
      else playRows j file ns step.1

/-- The row indices the worker processes in one file for chunk `(i, N)`. -/
def chunkRows (file : List Row) (chunk : Nat × Nat) : List Nat :=
  rowSlice file.length chunk.2 chunk.1

/-- Process one file inside the worker's outer try/except: a zero slice
count is a `ZeroDivisionError` before anything happens; a definition
without a `'leaves'` key is a `KeyError` while the leaf-union dictionary
is built, also before any row is read; both leave the registry unchanged
for this file.  An abort mid-scan keeps the partial updates. -/
def playFile (j : Nat) (file : List Row) (chunk : Nat × Nat) (reg : Registry) :
    Registry :=
  if chunk.2 = 0 then reg
  else if leavesPresent reg then (playRows j file (chunkRows file chunk) reg).1
  else reg

/-- Embedding of `dask_treeplayer`: process the assigned files in order,
incrementing the file counter `j` after each file regardless of errors,
and return the updated definitions. -/
def dask_treeplayer (j : Nat) (infiles : List (List Row)) (reg : Registry)
    (chunk : Nat × Nat) : Registry :=
  match infiles with
  | [] => reg
  | f :: rest => dask_treeplayer (j + 1) rest (playFile j f chunk reg) chunk

/-! ### dask_collector (lines 616-641) -/

/-- `TH1.Add`: element-wise sum when the binning is compatible; on
incompatible binning ROOT reports an error and leaves the target
unchanged without raising; a non-histogram argument is a Python-level
exception (`none`). -/
def th1Add (dst src : Histo) : Option Histo :=
  match dst.data, src.data with
  | .h1 e1 b1, .h1 e2 b2 =>
      if b1.length = b2.length then
        some ⟨dst.name, .h1 (e1 + e2) (List.zipWith (· + ·) b1 b2)⟩
      else some dst
  | _, _ => none

/-- The tree-append branch of `dask_collector`.  The code builds
`branch_map` pairing each source branch value with the destination branch
value, then for every source entry rebinds the pair's second component
locally — a no-op — and calls `dst_tree.Fill()`.  The net effect is one
copy of the destination's current buffer appended per source row; the
source rows' values are never transferred.  A source branch missing on the
destination is an `AttributeError` (`none`), as is a non-tree source. -/
def treeAppend (dst src : Histo) : Option Histo :=
  match dst.data, src.data with
  | .tree fd rd bd, .tree fs rs _ =>
      if fs.all fun b => fd.contains b then
        some ⟨dst.name, .tree fd (rd ++ rs.map fun _ => bd) bd⟩
      else none
  | _, _ => none

/-- Look up `result[k]['filling'][h]` in one chunk result; any missing key
is a `KeyError` (`none`). -/
def lookupFillHisto (r : Registry) (k h : String) : Option Histo :=
  (dictGet r k).bind fun hd => hd.filling.bind fun f => dictGet f h

/-- Merge one histogram of the running sum with the corresponding
histogram of every later chunk result, dispatching on its runtime type. -/
def collectEntry (rest : List Registry) (k hkey : String) (dst : Histo) :
    Option Histo :=
  match dst.data with
  | .tree _ _ _ =>
      rest.foldl (fun acc r => acc.bind fun d =>
        (lookupFillHisto r k hkey).bind fun s => treeAppend d s) (some dst)
  | _ =>
      rest.foldl (fun acc r => acc.bind fun d =>
        (lookupFillHisto r k hkey).bind fun s => th1Add d s) (some dst)

/-- Merge every histogram of one set's `'filling'` dictionary. -/
def collectFill (rest : List Registry) (k : String) : HMap → Option HMap
  | [] => some []
  | (hkey, dst) :: more =>
      (collectEntry rest k hkey dst).bind fun d' =>
      (collectFill rest k more).map fun m => (hkey, d') :: m

/-- Walk the first result's sets in order, merging the ones that carry a
`'filling'` key. -/
def collectorGo (rest : List Registry) : Registry → Option Registry
  | [] => some []
  | (k, hd) :: moreSets =>
      match hd.filling with
      | none => (collectorGo rest moreSets).map ((k, hd) :: ·)
      | some f =>
          (collectFill rest k f).bind fun f' =>
          (collectorGo rest moreSets).map ((k, { hd with filling := some f' }) :: ·)

/-- Embedding of `dask_collector`: the first result is the running sum;
an empty argument list is an `IndexError` (`none`); any exception inside
propagates (`none`). -/
def dask_collector (results : List Registry) : Option Registry :=
  match results with
  | [] => none
  | r0 :: rest => collectorGo rest r0

/-! ### Grouped reduction loop (fill_histograms, lines 307-311) -/

/-- The reduction loop over an abstract combiner `g` (the shape in which
`fill_histograms` invokes `dask_collector`): while more than `a` partial
results remain, replace them by the combiner applied to consecutive groups
of at most `a`; finish with one last combiner call.  `fuel` counts loop
iterations; running out (`none`) models the loop never reaching the exit
condition, which the termination theorem shows cannot happen for
`a ≥ 2`. -/
def reduceLoop {α : Type} (g : List α → α) (a : Nat) :
    Nat → List α → Option α
  | 0, rs => if a < rs.length then none else some (g rs)
  | fuel + 1, rs =>
      if a < rs.length then reduceLoop g a fuel ((chunksPos rs a).map g)
      else some (g rs)

/-- The same loop with the actual `dask_collector`, whose exceptions
(`none`) propagate. -/
def collectRounds (a : Nat) : Nat → List Registry → Option Registry
  | 0, rs => if a < rs.length then none else dask_collector rs
  | fuel + 1, rs =>
      if a < rs.length then
        match (chunksPos rs a).mapM dask_collector with
        | some rs' => collectRounds a fuel rs'
        | none => none
      else dask_collector rs

/-- Copy the `'filling'` dictionaries of the final merged result back into
the session registry (lines 311-313). -/
def mergeBack (reg last : Registry) : Registry :=
  reg.map fun kd =>
    match dictGet last kd.1 with
    | some hd' =>
        match hd'.filling with
        | some f => (kd.1, { kd.2 with filling := some f })
        | none => kd
    | none => kd

/-! ### fill_histograms (lines 222-332) -/

/-- Result of one `fill_histograms` call: the Python return value (or a
propagating exception), the log of `GetEntry` calls the sequential scan
issued, and the session state afterwards. -/
structure FillOut where
  result : Except Unit Nat
  visits : List Nat
  state : TState

/-- The registry after the unconditional `declare_histograms` of the
built-in statistics set at the top of `fill_histograms`. -/
def regWithStats (s : TState) : Registry :=
  (declare_histograms s.histodefs statsName (statsInitF s.chain.length)
    ⟨statsSrc, statsFillF⟩ ["NULL"]).2

/-- The registry and `ntofill` after the cache probe. -/
def probedR (s : TState) : Registry × Nat :=
  probeR s.cache (regWithStats s)

/-- Embedding of `treeview.fill_histograms`.  Declares the statistics set,
probes the cache, and if anything is pending runs either the sequential
scan over the row indices `[startrow, startrow + maxrows)` (the loop bound
never consults the chain's length) or the dask branch (which rejects
`chunksize = 0` with a `ValueError` before building any chunk); a
propagating exception skips the write-back.  On success every filling set
is written to the save file and the call returns `ntofill`. -/
def fill_histograms (s : TState) (maxrows startrow : Nat) (chunksize : Int)
    (accumsize : Nat) : FillOut :=
  let p := probedR s
  let reg2 := p.1
  let ntofill := p.2
  if 0 < ntofill ∧ s.daskOn = false then
    if leavesPresent reg2 then
      let rows := List.range' startrow maxrows
      let sc := seqScanRows s.chain rows ⟨reg2, none⟩
      if sc.2.2 then
        { result := .error (), visits := sc.1,
          state := { s with histodefs := sc.2.1.reg } }
      else
        let wb := writeBack sc.2.1.reg s.cache
        { result := .ok ntofill, visits := sc.1,
          state := { s with histodefs := wb.1, cache := wb.2 } }
    else
      { result := .error (), visits := [], state := { s with histodefs := reg2 } }
  else if 0 < ntofill then
    if chunksize = 0 then
      { result := .error (), visits := [], state := { s with histodefs := reg2 } }
    else
      let results := (mkChunks s.chain chunksize).map
        fun t => dask_treeplayer t.1 t.2.1 reg2 t.2.2
      match collectRounds accumsize (results.length + 1) results with
      | none =>
          { result := .error (), visits := [], state := { s with histodefs := reg2 } }
      | some last =>
          let reg3 := mergeBack reg2 last
          let wb := writeBack reg3 s.cache
          { result := .ok ntofill, visits := [],
            state := { s with histodefs := wb.1, cache := wb.2 } }
  else
    let wb := writeBack reg2 s.cache
    { result := .ok ntofill, visits := [],
      state := { s with histodefs := wb.1, cache := wb.2 } }

/-! ### get (lines 489-514) -/

/-- The fallback loop of `get`: walk every declared set's fresh
constructor output in order, remembering the last accumulator whose
self-reported name matches (the others are deleted again). -/
def getFresh (reg : Registry) (hname : String) : Option Histo :=
  reg.foldl (fun acc kd =>
    (kd.2.init ()).foldl
      (fun a kh => if kh.2.name = hname then some kh.2 else a) acc) none

/-- Embedding of `treeview.get`: return the cached histogram when the save
file has one under that name, otherwise a fresh empty copy from the
declared definitions, otherwise `None`; the session state is returned
unchanged in every case. -/
def get (s : TState) (hname : String) : Option Histo × TState :=
  match dictGet s.cache hname with
  | some h => (some h, s)
  | none => (getFresh s.histodefs hname, s)

/-! ## Theorems -/

instance {ε α : Type} [DecidableEq ε] [DecidableEq α] : DecidableEq (Except ε α)
  | .error a, .error b =>
      match decEq a b with
      | isTrue h => isTrue (by rw [h])
      | isFalse h => isFalse fun hh => h (Except.error.inj hh)
  | .error _, .ok _ => isFalse fun hh => Except.noConfusion hh
  | .ok _, .error _ => isFalse fun hh => Except.noConfusion hh
  | .ok a, .ok b =>
      match decEq a b with
      | isTrue h => isTrue (by rw [h])
      | isFalse h => isFalse fun hh => h (Except.ok.inj hh)

/-! ### Partition planner (C4) -/

/-- Ceiling division over-approximates: `n ≤ c * ((n + c - 1) / c)`. -/
lemma le_mul_ceilDiv (n c : Nat) (hc : 0 < c) : n ≤ c * ((n + c - 1) / c) := by
  have h1 := Nat.div_add_mod (n + c - 1) c
  have h2 := Nat.mod_lt (n + c - 1) hc
  omega

/-- Consecutive `take c` / `drop (i*c)` windows over any list tile it
exactly, provided enough windows are taken. -/
lemma tile_flatten {α : Type} (c : Nat) :
    ∀ (N : Nat) (l : List α), l.length ≤ c * N →
      ((List.range N).map fun i => (l.drop (i * c)).take c).flatten = l := by
  intro N
  induction N with
  | zero =>
      intro l h
      rw [Nat.mul_zero, Nat.le_zero, List.length_eq_zero] at h
      subst h
      simp
  | succ N ih =>
      intro l h
      have htail : ∀ i : Nat, (l.drop ((i + 1) * c)).take c
          = ((l.drop c).drop (i * c)).take c := by
        intro i
        rw [List.drop_drop]
        have hmul : c + i * c = (i + 1) * c := by ring
        rw [hmul]
      rw [List.range_succ_eq_map, List.map_cons, List.map_map, List.flatten_cons]
      have hmapeq : (List.range N).map ((fun i => (l.drop (i * c)).take c) ∘ Nat.succ)
          = (List.range N).map fun i => ((l.drop c).drop (i * c)).take c := by
        refine List.map_congr_left fun i _ => ?_
        simpa using htail i
      rw [hmapeq, ih (l.drop c) (by
        have hd : (l.drop c).length = l.length - c := by simp
        have hm : c * (N + 1) = c * N + c := Nat.mul_succ c N
        omega)]
      simp

/-- The positive chunk plan tiles the source list: concatenating the chunks
in order reproduces the sources with no gap or overlap. -/
lemma chunksPos_flatten {α : Type} (l : List α) (c : Nat) (hc : 0 < c) :
    (chunksPos l c).flatten = l :=
  tile_flatten c _ l (le_mul_ceilDiv l.length c hc)

/-- One slice of the negative-chunking row plan, as a function of the
per-slice row count `s`. -/
def sliceL (s n i : Nat) : List Nat :=
  List.range' (s * i) (min n (s * i + s) - s * i)

/-- `rowSlice` is `sliceL` at `s = ceilDiv n N`. -/
lemma rowSlice_eq_sliceL (n N i : Nat) : rowSlice n N i = sliceL (ceilDiv n N) n i := rfl

/-- Slice `i + 1` over `n` rows is slice `i` over the remaining `n - s`
rows shifted up by `s`. -/
lemma sliceL_succ (s n i : Nat) :
    sliceL s n (i + 1) = (sliceL s (n - s) i).map (s + ·) := by
  unfold sliceL
  rw [List.map_add_range']
  have hm : s * (i + 1) = s * i + s := Nat.mul_succ s i
  congr 1
  · omega
  · omega

/-- The `N` row-range slices of an `n`-row source tile `[0, n)` exactly,
provided `n ≤ s * N`. -/
lemma sliceL_flatten (s : Nat) :
    ∀ (N n : Nat), n ≤ s * N →
      ((List.range N).map (sliceL s n)).flatten = List.range' 0 n := by
  intro N
  induction N with
  | zero =>
      intro n h
      rw [Nat.mul_zero, Nat.le_zero] at h
      subst h
      simp
  | succ N ih =>
      intro n h
      rw [List.range_succ_eq_map, List.map_cons, List.map_map, List.flatten_cons]
      have hmapeq : (List.range N).map (sliceL s n ∘ Nat.succ)
          = (List.range N).map fun i => (sliceL s (n - s) i).map (s + ·) := by
        refine List.map_congr_left fun i _ => ?_
        simpa using sliceL_succ s n i
      rw [hmapeq]
      have hflat : ((List.range N).map fun i => (sliceL s (n - s) i).map (s + ·)).flatten
          = ((List.range N).map (sliceL s (n - s))).flatten.map (s + ·) := by
        rw [List.map_flatten, List.map_map]
        rfl
      rw [hflat, ih (n - s) (by rw [Nat.mul_succ] at h; omega)]
      have hhead : sliceL s n 0 = List.range' 0 (min n s) := by
        unfold sliceL
        rw [Nat.mul_zero]
        congr 1
        omega
      rw [hhead, List.map_add_range']
      rcases Nat.le_total s n with hsn | hns
      · have hmin : min n s = s := by omega
        rw [hmin]
        have := List.range'_append_1 0 s (n - s)
        simpa [Nat.sub_add_cancel hsn] using this
      · have hmin : min n s = n := by omega
        have hzero : n - s = 0 := by omega
        rw [hmin, hzero]
        simp

/-- The negative-chunking slices of `dask_treeplayer` tile the row indices
`[0, n)` of a source. -/
lemma rowSlice_flatten (n N : Nat) (hN : 0 < N) :
    ((List.range N).map (rowSlice n N)).flatten = List.range n := by
  have hmap : (List.range N).map (rowSlice n N)
      = (List.range N).map (sliceL (ceilDiv n N) n) :=
    List.map_congr_left fun i _ => rowSlice_eq_sliceL n N i
  have hle : n ≤ ceilDiv n N * N := by
    show n ≤ (n + N - 1) / N * N
    rw [Nat.mul_comm]
    exact le_mul_ceilDiv n N hN
  rw [hmap, sliceL_flatten (ceilDiv n N) N n hle, List.range_eq_range']

/-- C4.  Partition boundary sizes: planning 7 sources with `chunk_size = 3`
yields chunks of sizes `[3, 3, 1]` in source order; a single 10-row source
with `chunk_size = -3` yields 3 row-range sub-chunks of sizes `[4, 4, 2]`;
and in general, for any positive chunk size the chunks concatenate back to
the source list, and for any positive slice count the row-range sub-chunks
concatenate back to the full row index range — no gap, no overlap. -/
theorem C4_partition_planner_theorem :
    ((chunksPos (List.range 7) 3).map List.length = [3, 3, 1]) ∧
    ((List.range 3).map (fun i => (rowSlice 10 3 i).length) = [4, 4, 2]) ∧
    (∀ (α : Type) (l : List α) (c : Nat), 0 < c → (chunksPos l c).flatten = l) ∧
    (∀ n N : Nat, 0 < N → ((List.range N).map (rowSlice n N)).flatten = List.range n) :=
  ⟨by decide, by decide,
   fun _ l c hc => chunksPos_flatten l c hc,
   fun n N hN => rowSlice_flatten n N hN⟩

/-- Witness for C4: the general tiling statements applied at concrete
inputs. -/
theorem C4_partition_planner_witness :
    (chunksPos [10, 20, 30] 2).flatten = [10, 20, 30] ∧
    ((List.range 4).map (rowSlice 6 4)).flatten = List.range 6 :=
  ⟨C4_partition_planner_theorem.2.2.1 Nat [10, 20, 30] 2 (by decide),
   C4_partition_planner_theorem.2.2.2 6 4 (by decide)⟩

/-! ### Grouped reduction loop (C9) -/

/-- Every group the reduction step forms has at most `a` elements. -/
lemma chunksPos_group_le {α : Type} (a : Nat) (rs group : List α)
    (h : group ∈ chunksPos rs a) : group.length ≤ a := by
  unfold chunksPos at h
  obtain ⟨i, _, hi⟩ := List.mem_map.mp h
  subst hi
  rw [List.length_take]
  omega

/-- With group size `a ≥ 2`, each round strictly shrinks the list of
partial results, so fuel equal to the initial length suffices. -/
lemma reduceLoop_total {α : Type} (g : List α → α) (a : Nat) (ha : 2 ≤ a) :
    ∀ (fuel : Nat) (rs : List α), rs.length ≤ fuel → rs ≠ [] →
      ∃ r, reduceLoop g a fuel rs = some r := by
  intro fuel
  induction fuel with
  | zero =>
      intro rs hlen hne
      rw [Nat.le_zero, List.length_eq_zero] at hlen
      exact absurd hlen hne
  | succ fuel ih =>
      intro rs hlen hne
      by_cases hguard : a < rs.length
      · have hlen1 : 0 < rs.length := List.length_pos.mpr hne
        have hstep : ((chunksPos rs a).map g).length = (rs.length + a - 1) / a := by
          unfold chunksPos
          simp
        have hlt : (rs.length + a - 1) / a < rs.length := by
          rw [Nat.div_lt_iff_lt_mul (by omega : 0 < a)]
          have h2 : rs.length * 2 ≤ rs.length * a := Nat.mul_le_mul_left _ ha
          omega
        have hge : 1 ≤ (rs.length + a - 1) / a := by
          rw [Nat.one_le_div_iff (by omega : 0 < a)]
          omega
        have hne' : (chunksPos rs a).map g ≠ [] := by
          intro hnil
          rw [← List.length_eq_zero, hstep] at hnil
          omega
        have := ih ((chunksPos rs a).map g) (by rw [hstep]; omega) hne'
        simpa [reduceLoop, hguard] using this
      · exact ⟨g rs, by simp [reduceLoop, hguard]⟩

/-- C9 (amended).  For every combiner, every nonempty result list, and
every accumulator-group size `accumsize ≥ 2`, the grouped reduction loop
terminates with exactly one merged result within `length`-many rounds, and
no reduction group ever carries more than `accumsize` inputs (the final
combiner call fires only once the loop guard `length ≤ accumsize` holds,
so it also respects the bound).  For `accumsize = 1` the loop need not
terminate, which is what the counterexample shows. -/
theorem C9_reduction_theorem (α : Type) (g : List α → α) (a : Nat)
    (rs : List α) (ha : 2 ≤ a) (hne : rs ≠ []) :
    (∀ (rs' group : List α), group ∈ chunksPos rs' a → group.length ≤ a) ∧
    (∃ r, reduceLoop g a rs.length rs = some r) :=
  ⟨fun rs' group h => chunksPos_group_le a rs' group h,
   reduceLoop_total g a ha rs.length rs (Nat.le_refl _) hne⟩

/-- Witness for C9: the reduction of five partial sums with group size 2
terminates and every group of a 5-element round has at most 2 inputs. -/
theorem C9_reduction_witness :
    (∀ (rs' group : List Nat), group ∈ chunksPos rs' 2 → group.length ≤ 2) ∧
    (∃ r, reduceLoop (fun l => l.foldl (· + ·) 0) 2 [1, 2, 3, 4, 5].length
      [1, 2, 3, 4, 5] = some r) :=
  C9_reduction_theorem Nat (fun l => l.foldl (· + ·) 0) 2 [1, 2, 3, 4, 5]
    (by decide) (by decide)

/-- With `accumsize = 1` and two results, one round of grouping produces
two singleton groups, whose combination is again a two-element list: the
loop makes no progress at any fuel. -/
lemma reduceLoop_one_stuck :
    ∀ fuel : Nat, reduceLoop (fun _ => (0 : Nat)) 1 fuel [0, 0] = none := by
  intro fuel
  induction fuel with
  | zero => rfl
  | succ fuel ih =>
      have harg : (chunksPos [0, 0] 1).map (fun _ => (0 : Nat)) = [0, 0] := by decide
      have : reduceLoop (fun _ => (0 : Nat)) 1 (fuel + 1) [0, 0]
          = reduceLoop (fun _ => (0 : Nat)) 1 fuel
            ((chunksPos [0, 0] 1).map fun _ => (0 : Nat)) := by
        simp [reduceLoop]
      rw [this, harg, ih]

/-- Counterexample to C9 as stated: with `accumsize = 1` (which the claim
admits) and two chunk results, the reduction loop never reaches its exit
condition — there is no fuel bound under which it produces a result, i.e.
the `while` loop of `fill_histograms` runs forever. -/
theorem C9_reduction_counterexample :
    ¬ ∃ (fuel : Nat) (r : Nat),
        reduceLoop (fun _ => (0 : Nat)) 1 fuel [0, 0] = some r := by
  rintro ⟨fuel, r, hr⟩
  rw [reduceLoop_one_stuck fuel] at hr
  exact Option.noConfusion hr

/-! ### Appendable merge (C2) -/

/-- First chunk result: an appendable set whose tree holds the single row
`[1]`, with the branch buffer still holding that row's values. -/
def treeRegA : Registry :=
  [("t", { init := fun _ => [], fill := fun _ h => .ok h, leaves := some ["*"],
           filled := [], filling := some [("tt", ⟨"tt", .tree ["x"] [[1]] [1]⟩)] })]

/-- Second chunk result: the same set whose tree holds the single row
`[2]`. -/
def treeRegB : Registry :=
  [("t", { init := fun _ => [], fill := fun _ h => .ok h, leaves := some ["*"],
           filled := [], filling := some [("tt", ⟨"tt", .tree ["x"] [[2]] [2]⟩)] })]

/-- C2 (code bug).  Merging two appendable chunk results in sequence-index
order should concatenate their row sequences (`[[1], [2]]`), but the
branch-copy loop of `dask_collector` rebinds a local variable instead of
storing into the destination tree's branches, so the merged tree receives
one copy of the destination's stale buffer per source row: the result is
`[[1], [1]]`, and the second chunk's row values are lost. -/
theorem C2_collector_failing_eval :
    (dask_collector [treeRegA, treeRegB]).map
        (fun r => r.map fun kd => (kd.1, kd.2.filling))
      = some [("t", some [("tt", ⟨"tt", .tree ["x"] [[1], [1]] [1]⟩)])] ∧
    ([[1], [1]] : List Row) ≠ [[1], [2]] :=
  ⟨rfl, by decide⟩

/-! ### Sequential scan bound (C5) -/

/-- A chain of one file holding five rows. -/
def s5 : TState :=
  { histodefs := [], cache := [],
    chain := [[[0], [1], [2], [3], [4]]], daskOn := false }

/-- C5 (code bug).  On a 5-row chain with `startrow = 0`, `maxrows = 10`,
the sequential scan issues a `GetEntry` for every index in
`[0, startrow + maxrows)` — ten visits, five of them past the end of the
chain — because the row loop `range(startrow, startrow + maxrows)` never
consults the chain's length.  The claim's bound
`min(chain length, startrow + maxrows)` is violated. -/
theorem C5_scan_bound_failing_eval :
    (fill_histograms s5 10 0 1 100).visits = [0, 1, 2, 3, 4, 5, 6, 7, 8, 9] ∧
    totalRows s5.chain = 5 ∧
    ¬ (fill_histograms s5 10 0 1 100).visits.length ≤ totalRows s5.chain :=
  ⟨rfl, rfl, by decide⟩

/-! ### Registration (C6, C7) -/

/-- The mismatch walk of `declare_histograms` finds the first entry whose
key differs from the accumulator's name, returning the count of matching
entries before it. -/
lemma mismatchAt_spec (hs : HMap) : ∀ n : Nat,
    mismatchAt n hs = if hs.all (fun kh => kh.1 == kh.2.name) then none
      else some (n + (hs.takeWhile fun kh => kh.1 == kh.2.name).length) := by
  induction hs with
  | nil => intro n; simp [mismatchAt]
  | cons kh rest ih =>
      intro n
      obtain ⟨k, h⟩ := kh
      by_cases hk : k = h.name
      · have hb : (k == h.name) = true := beq_iff_eq.mpr hk
        rw [show mismatchAt n ((k, h) :: rest) = mismatchAt (n + 1) rest from by
          simp [mismatchAt, hk]]
        rw [ih (n + 1)]
        by_cases hall : rest.all (fun kh => kh.1 == kh.2.name)
        · simp [List.all_cons, hb, hall]
        · rw [if_neg hall]
          have hallc : ¬ ((((k, h) :: rest).all fun kh => kh.1 == kh.2.name) = true) := by
            simpa [List.all_cons, hb] using hall
          rw [if_neg hallc]
          have htw : (((k, h) :: rest).takeWhile fun kh => kh.1 == kh.2.name).length
              = (rest.takeWhile fun kh => kh.1 == kh.2.name).length + 1 := by
            simp [List.takeWhile_cons, hb]
          rw [htw]
          congr 1
          omega
      · have hb : (k == h.name) = false := by
          simp [hk]
        rw [show mismatchAt n ((k, h) :: rest) = some n from by simp [mismatchAt, hk]]
        simp [List.all_cons, hb, List.takeWhile_cons]

/-- C6 (amended).  When the constructor's mapping contains an accumulator
whose self-reported name differs from its key, `declare_histograms`
reports the error and leaves the registry unchanged, but its return value
is the count of correctly-named accumulators preceding the first mismatch
— zero only when the very first entry is mismatched, not in general. -/
theorem C6_register_mismatch_theorem (reg : Registry) (setname : String)
    (initfunc : Unit → HMap) (fillfunc : PyFun) (leaves : List String)
    (h : ((initfunc ()).all fun kh => kh.1 == kh.2.name) = false) :
    declare_histograms reg setname initfunc fillfunc leaves
      = (.ok ((initfunc ()).takeWhile fun kh => kh.1 == kh.2.name).length, reg) := by
  unfold declare_histograms
  rw [mismatchAt_spec (initfunc ()) 0, h]
  simp

/-- A constructor output whose second entry is mismatched: key `"b"`,
object name `"c"`. -/
def mmInit : Unit → HMap := fun _ =>
  [("a", ⟨"a", .h1 0 []⟩), ("b", ⟨"c", .h1 0 []⟩)]

/-- A well-formed fill routine paired with its source text. -/
def mmFill : PyFun := ⟨"def f(row, histos):", fun _ h => .ok h⟩

/-- Counterexample to C6 as stated: with one correctly-named accumulator
preceding the mismatch, the call returns 1, not the claimed 0 (the
registry is indeed left unchanged). -/
theorem C6_register_mismatch_counterexample :
    (declare_histograms [] "set1" mmInit mmFill []).1 = .ok 1 ∧
    (declare_histograms [] "set1" mmInit mmFill []).2 = [] ∧
    (Except.ok 1 : Except Unit Nat) ≠ .ok 0 :=
  ⟨rfl, rfl, by decide⟩

/-- Witness for C6: the amended statement evaluated on the concrete
mismatched constructor. -/
theorem C6_register_mismatch_witness :
    declare_histograms [] "set2" mmInit mmFill [] = (.ok 1, []) :=
  (C6_register_mismatch_theorem [] "set2" mmInit mmFill [] (by decide)).trans rfl

/-- C7 (amended).  When no explicit leaf list is given and the fill
routine's source does not match the expected function-header shape,
`inspect_source` raises a `ValueError` that propagates out of
`declare_histograms` uncaught — the call does not return a zero count —
and the registry has already been mutated: it now holds the new
definition without a `'leaves'` key. -/
theorem C7_malformed_theorem (reg : Registry) (setname : String)
    (initfunc : Unit → HMap) (fillfunc : PyFun)
    (hsrc : matchHeader fillfunc.src.toList = none)
    (hnames : ((initfunc ()).all fun kh => kh.1 == kh.2.name) = true) :
    declare_histograms reg setname initfunc fillfunc []
      = (.error (), dictSet reg setname
          { init := initfunc, fill := fillfunc.fn, leaves := none,
            filled := [], filling := none }) := by
  unfold declare_histograms
  rw [mismatchAt_spec (initfunc ()) 0, hnames]
  have hsrc' : matchHeader fillfunc.src.data = none := hsrc
  simp [inspect_source, hsrc']

/-- A well-named one-histogram constructor. -/
def okInit : Unit → HMap := fun _ => [("a", ⟨"a", .h1 0 []⟩)]

/-- A fill routine whose source has only one parameter, so the header
regex of `inspect_source` cannot match. -/
def badFill : PyFun := ⟨"def f(x): pass", fun _ h => .ok h⟩

/-- Counterexample to C7 as stated: the registration raises (it does not
return a recoverable zero count) and the registry is not unchanged — it
now contains the half-built definition with no leaf list. -/
theorem C7_malformed_counterexample :
    (declare_histograms [] "set3" okInit badFill []).1 = .error () ∧
    ((declare_histograms [] "set3" okInit badFill []).2.map
        fun kd => (kd.1, kd.2.leaves)) = [("set3", none)] ∧
    (Except.error () : Except Unit Nat) ≠ .ok 0 :=
  ⟨rfl, rfl, by decide⟩

/-- Witness for C7: the amended statement evaluated on the concrete
malformed fill routine. -/
theorem C7_malformed_witness :
    declare_histograms [] "set4" okInit badFill []
      = (.error (), dictSet [] "set4"
          { init := okInit, fill := badFill.fn, leaves := none,
            filled := [], filling := none }) :=
  C7_malformed_theorem [] "set4" okInit badFill (by decide) (by decide)

/-! ### Idempotence of fill (C1) and zero chunk size (C8) -/

/-- No definition carries a `'filling'` key. -/
def noFillingB (reg : Registry) : Bool := reg.all fun kd => kd.2.filling.isNone

/-- Every declared set's histograms are present in the save file. -/
def allCachedB (s : TState) : Bool :=
  s.histodefs.all fun kd => setIsCached s.cache kd.2

/-- The built-in statistics histogram is present in the save file. -/
def statsCachedB (s : TState) : Bool := (dictGet s.cache statsHName).isSome

/-- The definition `fill_histograms` installs for its statistics set. -/
def statsDefFor (nfiles : Nat) : HistoDef :=
  { init := statsInitF nfiles, fill := statsFillF, leaves := some ["NULL"],
    filled := [], filling := none }

/-- The unconditional statistics declaration appends (or replaces) the
statistics definition. -/
lemma regWithStats_eq (s : TState) :
    regWithStats s = dictSet s.histodefs statsName (statsDefFor s.chain.length) := rfl

/-- Members of a dict after assignment: either an old binding or the new
one. -/
lemma mem_dictSet {α : Type} (d : List (String × α)) (k : String) (v : α) :
    ∀ kd ∈ dictSet d k v, kd ∈ d ∨ kd = (k, v) := by
  induction d with
  | nil =>
      intro kd h
      simp [dictSet] at h
      right
      simp [h]
  | cons x rest ih =>
      intro kd h
      by_cases hk : x.1 = k
      · rw [show dictSet (x :: rest) k v = (k, v) :: rest from by
          cases x; simp [dictSet, hk] at hk ⊢; simp [hk]] at h
        rcases List.mem_cons.mp h with h | h
        · right; exact h
        · left; exact List.mem_cons_of_mem _ h
      · rw [show dictSet (x :: rest) k v = x :: dictSet rest k v from by
          cases x; simp [dictSet]; intro he; exact absurd he hk] at h
        rcases List.mem_cons.mp h with h | h
        · left; exact h ▸ List.mem_cons_self _ _
        · rcases ih kd h with h | h
          · left; exact List.mem_cons_of_mem _ h
          · right; exact h

/-- Probing a fully cached registry marks nothing for filling. -/
lemma probeR_all_cached (cache : List (String × Histo)) :
    ∀ reg : Registry, (∀ kd ∈ reg, setIsCached cache kd.2 = true) →
      probeR cache reg
        = (reg.map fun kd => (kd.1, { kd.2 with filled := [] }), 0) := by
  intro reg
  induction reg with
  | nil => intro _; rfl
  | cons kd rest ih =>
      intro h
      have hc : setIsCached cache kd.2 = true := h kd (List.mem_cons_self _ _)
      simp [probeR, probeDef, hc, ih fun kd' hkd' => h kd' (List.mem_cons_of_mem _ hkd')]

/-- The write-back loop is the identity when no set is filling. -/
lemma writeBack_noFilling :
    ∀ (reg : Registry) (cache : List (String × Histo)),
      (∀ kd ∈ reg, kd.2.filling = none) → writeBack reg cache = (reg, cache) := by
  intro reg
  induction reg with
  | nil => intro cache _; rfl
  | cons kd rest ih =>
      intro cache h
      cases kd with
      | mk k hd =>
          have hf : hd.filling = none := h (k, hd) (List.mem_cons_self _ _)
          simp only [writeBack, hf]
          rw [ih cache fun kd' hkd' => h kd' (List.mem_cons_of_mem _ hkd')]

/-- The full-cache invariant: every declared set cached, the statistics
histogram cached, and no scan in progress. -/
def CachedInv (s : TState) : Prop :=
  allCachedB s = true ∧ statsCachedB s = true ∧ noFillingB s.histodefs = true

/-- One `fill_histograms` call on a fully cached state: no exception,
return value 0, no `GetEntry` issued, the save file untouched, and the
resulting state is again fully cached. -/
lemma fill_all_cached (s : TState) (m r : Nat) (c : Int) (a : Nat)
    (h : CachedInv s) :
    (fill_histograms s m r c a).result = .ok 0 ∧
    (fill_histograms s m r c a).visits = [] ∧
    (fill_histograms s m r c a).state.cache = s.cache ∧
    CachedInv (fill_histograms s m r c a).state := by
  obtain ⟨h1, h2, h3⟩ := h
  have hstats : setIsCached s.cache (statsDefFor s.chain.length) = true := by
    simp only [setIsCached, statsDefFor, statsInitF, List.all_cons, List.all_nil,
      Bool.and_true]
    exact h2
  have hall1 : ∀ kd ∈ regWithStats s, setIsCached s.cache kd.2 = true := by
    intro kd hkd
    rw [regWithStats_eq] at hkd
    rcases mem_dictSet _ _ _ kd hkd with hmem | heq
    · exact List.all_eq_true.mp h1 kd hmem
    · rw [heq]
      exact hstats
  have hprobe : probedR s
      = ((regWithStats s).map fun kd => (kd.1, { kd.2 with filled := [] }), 0) := by
    unfold probedR
    exact probeR_all_cached s.cache (regWithStats s) hall1
  have hnof1 : ∀ kd ∈ regWithStats s, kd.2.filling = none := by
    intro kd hkd
    rw [regWithStats_eq] at hkd
    rcases mem_dictSet _ _ _ kd hkd with hmem | heq
    · have := List.all_eq_true.mp h3 kd hmem
      simpa [Option.isNone_iff_eq_none] using this
    · rw [heq]
      rfl
  have hnof2 : ∀ kd ∈ (regWithStats s).map
      (fun kd => (kd.1, { kd.2 with filled := [] })), kd.2.filling = none := by
    intro kd hkd
    obtain ⟨kd0, hmem0, heq0⟩ := List.mem_map.mp hkd
    rw [← heq0]
    exact hnof1 kd0 hmem0
  have hwb := writeBack_noFilling
    ((regWithStats s).map fun kd => (kd.1, { kd.2 with filled := [] })) s.cache hnof2
  have hfill : fill_histograms s m r c a =
      { result := .ok 0, visits := [],
        state := { s with
          histodefs := (regWithStats s).map fun kd => (kd.1, { kd.2 with filled := [] }),
          cache := s.cache } } := by
    simp only [fill_histograms, hprobe]
    norm_num
    rw [hwb]
    exact ⟨rfl, rfl⟩
  refine ⟨by rw [hfill], by rw [hfill], by rw [hfill], ?_⟩
  rw [hfill]
  refine ⟨?_, ?_, ?_⟩
  · apply List.all_eq_true.mpr
    intro kd hkd
    obtain ⟨kd0, hmem0, heq0⟩ := List.mem_map.mp hkd
    rw [← heq0]
    exact hall1 kd0 hmem0
  · exact h2
  · apply List.all_eq_true.mpr
    intro kd hkd
    have := hnof2 kd hkd
    simp [Option.isNone_iff_eq_none, this]

/-- C1 (amended).  For every state whose declared sets are all cached in
the save file, whose built-in statistics histogram is also cached, and in
which no scan is in progress, `fill_histograms` issues no `GetEntry`
(zero record scanning), returns an updated-count of zero, and leaves the
save file untouched; a second consecutive call behaves identically.  (As
stated, the claim omits the statistics histogram: the counterexample shows
a registry whose every declared set is cached where the call still scans
and returns 1.) -/
theorem C1_idempotence_theorem (s : TState) (m r : Nat) (c : Int) (a : Nat)
    (h1 : allCachedB s = true) (h2 : statsCachedB s = true)
    (h3 : noFillingB s.histodefs = true) :
    ((fill_histograms s m r c a).result = .ok 0 ∧
     (fill_histograms s m r c a).visits = [] ∧
     (fill_histograms s m r c a).state.cache = s.cache) ∧
    ((fill_histograms (fill_histograms s m r c a).state m r c a).result = .ok 0 ∧
     (fill_histograms (fill_histograms s m r c a).state m r c a).visits = [] ∧
     (fill_histograms (fill_histograms s m r c a).state m r c a).state.cache
       = s.cache) := by
  obtain ⟨hr, hv, hc, hinv⟩ := fill_all_cached s m r c a ⟨h1, h2, h3⟩
  obtain ⟨hr2, hv2, hc2, -⟩ := fill_all_cached (fill_histograms s m r c a).state m r c a hinv
  exact ⟨⟨hr, hv, hc⟩, ⟨hr2, hv2, hc2.trans hc⟩⟩

/-- A cached user set for the C1 witness. -/
def cachedSetInit : Unit → HMap := fun _ => [("huser", ⟨"huser", .h1 0 [0, 0]⟩)]

/-- A fully cached session: the user set's histogram and the statistics
histogram are both in the save file. -/
def sw1 : TState :=
  { histodefs := [("user set",
      { init := cachedSetInit, fill := fun _ h => .ok h,
        leaves := some ["px"], filled := [], filling := none })],
    cache := [("huser", ⟨"huser", .h1 9 [4, 5]⟩), (statsHName, ⟨statsHName, .h1 2 [2]⟩)],
    chain := [[[1], [2]]], daskOn := false }

/-- Witness for C1: both consecutive calls on the fully cached state
return 0 and scan nothing. -/
theorem C1_idempotence_witness :
    ((fill_histograms sw1 4 0 1 100).result = .ok 0 ∧
     (fill_histograms sw1 4 0 1 100).visits = [] ∧
     (fill_histograms sw1 4 0 1 100).state.cache = sw1.cache) ∧
    ((fill_histograms (fill_histograms sw1 4 0 1 100).state 4 0 1 100).result = .ok 0 ∧
     (fill_histograms (fill_histograms sw1 4 0 1 100).state 4 0 1 100).visits = [] ∧
     (fill_histograms (fill_histograms sw1 4 0 1 100).state 4 0 1 100).state.cache
       = sw1.cache) :=
  C1_idempotence_theorem sw1 4 0 1 100 (by decide) (by decide) (by decide)

/-- The empty session: no user sets declared, empty cache, a one-row
chain.  Every declared histogram set (there are none) is vacuously
cached. -/
def s0 : TState := { histodefs := [], cache := [], chain := [[[5]]], daskOn := false }

/-- Counterexample to C1 as stated: on a registry whose every declared set
is cached (vacuously — it is empty), the first `fill_histograms` call
still scans records and returns 1, because the built-in statistics set it
declares internally is not yet cached. -/
theorem C1_idempotence_counterexample :
    allCachedB s0 = true ∧
    (fill_histograms s0 2 0 1 100).visits = [0, 1] ∧
    (fill_histograms s0 2 0 1 100).result = .ok 1 ∧
    ¬ ((fill_histograms s0 2 0 1 100).visits = [] ∧
       (fill_histograms s0 2 0 1 100).result = .ok 0) := by decide

/-- C8 (amended).  Only when a dask client is configured and at least one
definition is pending does `chunk_size = 0` abort the call: a `ValueError`
is raised before any chunk task is built, no record is visited and the
save file is untouched, though the registry already holds the probe's
updates (the statistics set and the pending markers).  With no client
configured, `chunk_size` is ignored entirely: the call behaves identically
for any two chunk sizes, and in particular `chunk_size = 0` raises
nothing. -/
theorem C8_chunkzero_theorem :
    (∀ (s : TState) (m r a : Nat),
        s.daskOn = true → 0 < (probedR s).2 →
        (fill_histograms s m r 0 a).result = .error () ∧
        (fill_histograms s m r 0 a).visits = [] ∧
        (fill_histograms s m r 0 a).state.cache = s.cache ∧
        (fill_histograms s m r 0 a).state.histodefs = (probedR s).1) ∧
    (∀ (s : TState) (m r : Nat) (c c' : Int) (a : Nat),
        s.daskOn = false → fill_histograms s m r c a = fill_histograms s m r c' a) := by
  constructor
  · intro s m r a hd hnt
    have hcond : ¬ (0 < (probedR s).2 ∧ s.daskOn = false) := by
      rintro ⟨-, hF⟩
      rw [hd] at hF
      exact Bool.noConfusion hF
    simp only [fill_histograms]
    rw [if_neg hcond, if_pos hnt, if_pos trivial]
    exact ⟨rfl, rfl, rfl, rfl⟩
  · intro s m r c c' a hd
    by_cases hnt : 0 < (probedR s).2
    · have hcond : 0 < (probedR s).2 ∧ s.daskOn = false := ⟨hnt, hd⟩
      simp only [fill_histograms]
      rw [if_pos hcond, if_pos hcond]
    · have hcond : ¬ (0 < (probedR s).2 ∧ s.daskOn = false) := fun hh => hnt hh.1
      simp only [fill_histograms]
      rw [if_neg hcond, if_neg hcond, if_neg hnt, if_neg hnt]

/-- An empty session with a dask client configured. -/
def sdask : TState := { histodefs := [], cache := [], chain := [], daskOn := true }

/-- Witness for C8: the dask-mode abort and the sequential-mode
indifference to the chunk size, at concrete inputs. -/
theorem C8_chunkzero_witness :
    (fill_histograms sdask 1 0 0 100).result = .error () ∧
    fill_histograms s0 1 0 5 100 = fill_histograms s0 1 0 7 100 :=
  ⟨(C8_chunkzero_theorem.1 sdask 1 0 100 rfl (by decide)).1,
   C8_chunkzero_theorem.2 s0 1 0 5 7 100 rfl⟩

/-- Counterexample to C8 as stated: in sequential mode (no dask client)
with a pending definition, `chunk_size = 0` raises no `ConfigurationError`
— the call succeeds, scans a record, and commits new cache state. -/
theorem C8_chunkzero_counterexample :
    s0.daskOn = false ∧
    (fill_histograms s0 1 0 0 100).result = .ok 1 ∧
    (fill_histograms s0 1 0 0 100).visits = [0] ∧
    (fill_histograms s0 1 0 0 100).state.cache ≠ s0.cache := by decide

/-! ### Lookup fallback (C10) -/

/-- Last-match fold over one constructor output: a `some` result is a
matching member of the list, unless it was already the accumulator. -/
lemma hmap_lastMatch_some (hname : String) :
    ∀ (l : HMap) (acc : Option Histo) (h : Histo),
      l.foldl (fun a kh => if kh.2.name = hname then some kh.2 else a) acc = some h →
      (h.name = hname ∧ ∃ kh ∈ l, kh.2 = h) ∨ acc = some h := by
  intro l
  induction l with
  | nil => intro acc h hh; right; exact hh
  | cons x xs ih =>
      intro acc h hh
      rw [List.foldl_cons] at hh
      rcases ih _ h hh with ⟨hn, kh, hm, he⟩ | hacc
      · exact Or.inl ⟨hn, kh, List.mem_cons_of_mem _ hm, he⟩
      · by_cases hx : x.2.name = hname
        · rw [if_pos hx] at hacc
          have hxh : x.2 = h := Option.some.inj hacc
          exact Or.inl ⟨hxh ▸ hx, x, List.mem_cons_self _ _, hxh⟩
        · rw [if_neg hx] at hacc
          exact Or.inr hacc

/-- The last-match fold keeps a `some` accumulator `some`. -/
lemma hmap_lastMatch_acc (hname : String) :
    ∀ (l : HMap) (acc : Option Histo), acc.isSome →
      (l.foldl (fun a kh => if kh.2.name = hname then some kh.2 else a) acc).isSome := by
  intro l
  induction l with
  | nil => intro acc h; exact h
  | cons x xs ih =>
      intro acc h
      rw [List.foldl_cons]
      by_cases hx : x.2.name = hname
      · exact ih _ (by rw [if_pos hx]; rfl)
      · exact ih _ (by rw [if_neg hx]; exact h)

/-- A name match anywhere in the list makes the last-match fold return
`some`. -/
lemma hmap_lastMatch_exists (hname : String) :
    ∀ (l : HMap) (acc : Option Histo), (∃ kh ∈ l, kh.2.name = hname) →
      (l.foldl (fun a kh => if kh.2.name = hname then some kh.2 else a) acc).isSome := by
  intro l
  induction l with
  | nil =>
      intro acc h
      obtain ⟨kh, hm, -⟩ := h
      exact absurd hm (List.not_mem_nil kh)
  | cons x xs ih =>
      intro acc h
      rw [List.foldl_cons]
      obtain ⟨kh, hm, hn⟩ := h
      rcases List.mem_cons.mp hm with hm | hm
      · apply hmap_lastMatch_acc
        rw [hm] at hn
        rw [if_pos hn]
        rfl
      · exact ih _ ⟨kh, hm, hn⟩

/-- A `some` result of the `get` fallback walk is a fresh constructor
output whose name matches. -/
lemma getFresh_aux_some (hname : String) :
    ∀ (reg : Registry) (acc : Option Histo) (h : Histo),
      reg.foldl (fun acc kd => (kd.2.init ()).foldl
        (fun a kh => if kh.2.name = hname then some kh.2 else a) acc) acc = some h →
      (h.name = hname ∧ ∃ kd ∈ reg, ∃ kh ∈ kd.2.init (), kh.2 = h) ∨ acc = some h := by
  intro reg
  induction reg with
  | nil => intro acc h hh; right; exact hh
  | cons kd0 rest ih =>
      intro acc h hh
      rw [List.foldl_cons] at hh
      rcases ih _ h hh with ⟨hn, kd, hkd, kh, hkh, he⟩ | hacc
      · exact Or.inl ⟨hn, kd, List.mem_cons_of_mem _ hkd, kh, hkh, he⟩
      · rcases hmap_lastMatch_some hname (kd0.2.init ()) acc h hacc with ⟨hn, kh, hkh, he⟩ | h0
        · exact Or.inl ⟨hn, kd0, List.mem_cons_self _ _, kh, hkh, he⟩
        · exact Or.inr h0

/-- A matching name among the declared constructors makes the fallback
walk succeed. -/
lemma getFresh_aux_isSome (hname : String) :
    ∀ (reg : Registry) (acc : Option Histo),
      ((∃ kd ∈ reg, ∃ kh ∈ kd.2.init (), kh.2.name = hname) ∨ acc.isSome) →
      (reg.foldl (fun acc kd => (kd.2.init ()).foldl
        (fun a kh => if kh.2.name = hname then some kh.2 else a) acc) acc).isSome := by
  intro reg
  induction reg with
  | nil =>
      intro acc h
      rcases h with ⟨kd, hm, -⟩ | h
      · exact absurd hm (List.not_mem_nil kd)
      · exact h
  | cons kd0 rest ih =>
      intro acc h
      rw [List.foldl_cons]
      rcases h with ⟨kd, hm, hex⟩ | h
      · rcases List.mem_cons.mp hm with hm | hm
        · exact ih _ (Or.inr (hmap_lastMatch_exists hname _ acc (hm ▸ hex)))
        · exact ih _ (Or.inl ⟨kd, hm, hex⟩)
      · exact ih _ (Or.inr (hmap_lastMatch_acc hname _ acc h))

/-- C10.  At the public lookup interface, `get(name)` returns the cached
accumulator when the save file holds one under that name; otherwise, if
some declared set's constructor produces an accumulator with that
self-reported name, it returns a fresh empty copy (entry count zero, under
the data-model invariant that constructors create empty accumulators)
rather than an error; and only when the name is neither cached nor
declared does it return `None`.  The session state is unchanged in every
case. -/
theorem C10_get_theorem (s : TState) (hname : String)
    (hempty : ∀ kd ∈ s.histodefs, ∀ kh ∈ kd.2.init (), Histo.entriesCount kh.2 = 0) :
    (∀ h, dictGet s.cache hname = some h → get s hname = (some h, s)) ∧
    (dictGet s.cache hname = none →
      (∃ kd ∈ s.histodefs, ∃ kh ∈ kd.2.init (), kh.2.name = hname) →
      ∃ h, get s hname = (some h, s) ∧ h.name = hname ∧ Histo.entriesCount h = 0) ∧
    (dictGet s.cache hname = none →
      ¬ (∃ kd ∈ s.histodefs, ∃ kh ∈ kd.2.init (), kh.2.name = hname) →
      get s hname = (none, s)) := by
  refine ⟨?_, ?_, ?_⟩
  · intro h hh
    simp [get, hh]
  · intro hc hex
    have hs : (getFresh s.histodefs hname).isSome :=
      getFresh_aux_isSome hname s.histodefs none (Or.inl hex)
    obtain ⟨h, hh⟩ := Option.isSome_iff_exists.mp hs
    have hh' : getFresh s.histodefs hname = some h := hh
    rcases getFresh_aux_some hname s.histodefs none h hh' with ⟨hn, kd, hkd, kh, hkh, he⟩ | habs
    · exact ⟨h, by simp [get, hc, hh'], hn, he ▸ hempty kd hkd kh hkh⟩
    · exact Option.noConfusion habs
  · intro hc hnex
    have hgf : getFresh s.histodefs hname = none := by
      cases hgf : getFresh s.histodefs hname with
      | none => rfl
      | some h =>
          rcases getFresh_aux_some hname s.histodefs none h hgf with ⟨hn, kd, hkd, kh, hkh, he⟩ | habs
          · exact absurd ⟨kd, hkd, kh, hkh, he ▸ hn⟩ hnex
          · exact Option.noConfusion habs
    simp [get, hc, hgf]

/-- A session with one declared set (constructor output named `"a"`) and
one cached histogram `"c"`. -/
def s10 : TState :=
  { histodefs := [("u",
      { init := okInit, fill := fun _ h => .ok h, leaves := some [],
        filled := [], filling := none })],
    cache := [("c", ⟨"c", .h1 7 []⟩)], chain := [], daskOn := false }

/-- Witness for C10: the three branches of the lookup fallback evaluated
on a concrete session. -/
theorem C10_get_witness :
    get s10 "c" = (some ⟨"c", .h1 7 []⟩, s10) ∧
    (∃ h, get s10 "a" = (some h, s10) ∧ h.name = "a" ∧ Histo.entriesCount h = 0) ∧
    get s10 "zz" = (none, s10) :=
  ⟨(C10_get_theorem s10 "c" (by decide)).1 _ rfl,
   (C10_get_theorem s10 "a" (by decide)).2.1 rfl (by decide),
   (C10_get_theorem s10 "zz" (by decide)).2.2 rfl (by decide)⟩

/-! ### Partial-failure tolerance (C3) -/

/-- Reference semantics for one definition in the worker scan: apply the
fill routine to each row in order, skipping exactly the applications that
raise. -/
def fillRowsSkip (fill : FillFn) (rows : List Row) (f : HMap) : HMap :=
  rows.foldl (fun acc row =>
    match fill (.inr row) acc with
    | .ok a => a
    | .error _ => acc) f

/-- The row data a worker reads over its assigned files and row slices, in
scan order. -/
def rowsOfChunk (infiles : List (List Row)) (chunk : Nat × Nat) : List Row :=
  (infiles.map fun file => (chunkRows file chunk).map fun n => file.getD n []).flatten

/-- Effect of one worker-scan row on one non-statistics definition: the
fill applies if pending and succeeds, and is skipped otherwise. -/
def parStepDef (row : Row) (hd : HistoDef) : HistoDef :=
  match hd.filling with
  | none => hd
  | some f =>
      match hd.fill (.inr row) f with
      | .ok f' => { hd with filling := some f' }
      | .error _ => hd

/-- Effect of one worker-scan row on one registry entry (the statistics
set receives the file index instead of the row). -/
def parEntryStep (j : Nat) (row : Row) (kd : String × HistoDef) : String × HistoDef :=
  if kd.1 = statsName then
    match kd.2.filling with
    | some f =>
        match kd.2.fill (.inl (Int.ofNat j)) f with
        | .ok f' => (kd.1, { kd.2 with filling := some f' })
        | .error _ => kd
    | none => kd
  else (kd.1, parStepDef row kd.2)

/-- The statistics entries of a registry (if any) are scannable: they
carry a `'filling'` key and their fill routine never raises on a file
index.  This is what `fill_histograms` always arranges before dispatching
workers; without it the worker's unprotected statistics call aborts the
file. -/
def StatsOk (reg : Registry) : Prop :=
  ∀ kd ∈ reg, kd.1 = statsName →
    kd.2.filling.isSome ∧ ∀ (i : Int) (g : HMap), ∃ g', kd.2.fill (.inl i) g = .ok g'

/-- `parStepDef` preserves the fill routine, the leaf list, and the
presence of the `'filling'` key. -/
lemma parStepDef_preserves (row : Row) (hd : HistoDef) :
    (parStepDef row hd).fill = hd.fill ∧
    (parStepDef row hd).leaves = hd.leaves ∧
    (parStepDef row hd).filling.isSome = hd.filling.isSome := by
  unfold parStepDef
  split
  next hfl => exact ⟨rfl, rfl, rfl⟩
  next f hfl =>
    split
    next f' hr => exact ⟨rfl, rfl, by rw [hfl]; rfl⟩
    next e hr => exact ⟨rfl, rfl, rfl⟩

/-- `parEntryStep` preserves the key, the fill routine, the leaf list, and
the presence of the `'filling'` key. -/
lemma parEntryStep_preserves (j : Nat) (row : Row) (kd : String × HistoDef) :
    (parEntryStep j row kd).1 = kd.1 ∧
    (parEntryStep j row kd).2.fill = kd.2.fill ∧
    (parEntryStep j row kd).2.leaves = kd.2.leaves ∧
    (parEntryStep j row kd).2.filling.isSome = kd.2.filling.isSome := by
  by_cases hk : kd.1 = statsName
  · unfold parEntryStep
    rw [if_pos hk]
    split
    next f hfl =>
      split
      next f' hr => exact ⟨rfl, rfl, rfl, by rw [hfl]; rfl⟩
      next e hr => exact ⟨rfl, rfl, rfl, rfl⟩
    next hfl => exact ⟨rfl, rfl, rfl, rfl⟩
  · unfold parEntryStep
    rw [if_neg hk]
    have h2 := parStepDef_preserves row kd.2
    exact ⟨rfl, h2.1, h2.2.1, h2.2.2⟩

/-- Under `StatsOk`, one worker-scan row maps every registry entry through
`parEntryStep` and never aborts. -/
lemma applyDefsPar_ok (j : Nat) (row : Row) :
    ∀ reg : Registry, StatsOk reg →
      applyDefsPar j row reg = (reg.map (parEntryStep j row), false) := by
  intro reg
  induction reg with
  | nil => intro _; rfl
  | cons kd rest ih =>
      intro hst
      have hrest : StatsOk rest := fun kd' h' hk' => hst kd' (List.mem_cons_of_mem _ h') hk'
      obtain ⟨k, hd⟩ := kd
      by_cases hk : k = statsName
      · obtain ⟨hsome, hfill⟩ := hst (k, hd) (List.mem_cons_self _ _) hk
        obtain ⟨f, hf⟩ := Option.isSome_iff_exists.mp hsome
        obtain ⟨f', hf'⟩ := hfill (Int.ofNat j) f
        have hf2 : hd.filling = some f := hf
        have hf2' : hd.fill (.inl (Int.ofNat j)) f = .ok f' := hf'
        simp only [applyDefsPar, hk, if_true, hf2, hf2', ih hrest, List.map_cons,
          parEntryStep]
      · simp only [applyDefsPar, hk, if_false, ih hrest, List.map_cons, parEntryStep,
          parStepDef]
        cases hfl : hd.filling with
        | none => simp
        | some f =>
            cases hr : hd.fill (.inr row) f with
            | ok f' => simp
            | error e => simp

/-- `StatsOk` survives one worker-scan row. -/
lemma statsOk_map (j : Nat) (row : Row) (reg : Registry) (h : StatsOk reg) :
    StatsOk (reg.map (parEntryStep j row)) := by
  intro kd' hkd' hk'
  obtain ⟨kd, hkd, heq⟩ := List.mem_map.mp hkd'
  have hpre := parEntryStep_preserves j row kd
  have hk : kd.1 = statsName := by rw [← hpre.1, heq]; exact hk'
  obtain ⟨hsome, hfill⟩ := h kd hkd hk
  constructor
  · rw [← heq, hpre.2.2.2]
    exact hsome
  · intro i g
    rw [← heq, hpre.2.1]
    exact hfill i g

/-- Leaf lists survive one worker-scan row. -/
lemma leavesPresent_map (j : Nat) (row : Row) (reg : Registry)
    (h : leavesPresent reg = true) :
    leavesPresent (reg.map (parEntryStep j row)) = true := by
  apply List.all_eq_true.mpr
  intro kd' hkd'
  obtain ⟨kd, hkd, heq⟩ := List.mem_map.mp hkd'
  rw [← heq, (parEntryStep_preserves j row kd).2.2.1]
  exact List.all_eq_true.mp h kd hkd

/-- Dict lookup through an entry-wise, key-preserving map. -/
lemma dictGet_map_entry {α : Type} (step : (String × α) → (String × α))
    (hkey : ∀ kd, (step kd).1 = kd.1) (k : String) :
    ∀ d : List (String × α),
      dictGet (d.map step) k = (dictGet d k).map fun v => (step (k, v)).2 := by
  intro d
  induction d with
  | nil => rfl
  | cons kd rest ih =>
      obtain ⟨k', v⟩ := kd
      simp only [List.map_cons, dictGet]
      by_cases hk : k' = k
      · rw [if_pos (by rw [hkey (k', v)]; exact hk), if_pos hk]
        subst hk
        rfl
      · rw [if_neg (by rw [hkey (k', v)]; exact hk), if_neg hk]
        exact ih

/-- The abort-free worker scan over a row list, entry-wise. -/
def regRowsFold (j : Nat) (rows : List Row) (reg : Registry) : Registry :=
  rows.foldl (fun rg row => rg.map (parEntryStep j row)) reg

/-- `StatsOk` survives any number of worker-scan rows. -/
lemma regRowsFold_statsOk (j : Nat) :
    ∀ (rows : List Row) (reg : Registry), StatsOk reg →
      StatsOk (regRowsFold j rows reg) := by
  intro rows
  induction rows with
  | nil => intro reg h; exact h
  | cons row rows ih =>
      intro reg h
      exact ih _ (statsOk_map j row reg h)

/-- Leaf lists survive any number of worker-scan rows. -/
lemma regRowsFold_leaves (j : Nat) :
    ∀ (rows : List Row) (reg : Registry), leavesPresent reg = true →
      leavesPresent (regRowsFold j rows reg) = true := by
  intro rows
  induction rows with
  | nil => intro reg h; exact h
  | cons row rows ih =>
      intro reg h
      exact ih _ (leavesPresent_map j row reg h)

/-- Under `StatsOk`, the worker's per-file row walk never aborts and is
the entry-wise fold. -/
lemma playRows_ok (j : Nat) (file : List Row) :
    ∀ (ns : List Nat) (reg : Registry), StatsOk reg →
      playRows j file ns reg
        = (regRowsFold j (ns.map fun n => file.getD n []) reg, false) := by
  intro ns
  induction ns with
  | nil => intro reg _; rfl
  | cons n ns ih =>
      intro reg h
      have hstep := applyDefsPar_ok j (file.getD n []) reg h
      simp only [playRows, hstep]
      exact ih _ (statsOk_map j (file.getD n []) reg h)

/-- Under `StatsOk` with declared leaves and a nonzero slice count, one
worker file is the entry-wise fold over its assigned rows. -/
lemma playFile_ok (j : Nat) (file : List Row) (chunk : Nat × Nat) (reg : Registry)
    (hc : chunk.2 ≠ 0) (hl : leavesPresent reg = true) (hst : StatsOk reg) :
    playFile j file chunk reg
      = regRowsFold j ((chunkRows file chunk).map fun n => file.getD n []) reg := by
  unfold playFile
  rw [if_neg hc, if_pos hl, playRows_ok j file (chunkRows file chunk) reg hst]

/-- The abort-free worker scan over a file list. -/
def playerFold (chunk : Nat × Nat) : List (List Row) → Nat → Registry → Registry
  | [], _, reg => reg
  | f :: rest, j, reg =>
      playerFold chunk rest (j + 1)
        (regRowsFold j ((chunkRows f chunk).map fun n => f.getD n []) reg)

/-- Under `StatsOk` with declared leaves and a nonzero slice count, the
worker is the abort-free file fold. -/
lemma dask_treeplayer_eq (chunk : Nat × Nat) (hc : chunk.2 ≠ 0) :
    ∀ (infiles : List (List Row)) (j : Nat) (reg : Registry),
      leavesPresent reg = true → StatsOk reg →
      dask_treeplayer j infiles reg chunk = playerFold chunk infiles j reg := by
  intro infiles
  induction infiles with
  | nil => intro j reg _ _; rfl
  | cons file rest ih =>
      intro j reg hl hst
      simp only [dask_treeplayer, playerFold,
        playFile_ok j file chunk reg hc hl hst]
      exact ih (j + 1) _ (regRowsFold_leaves j _ reg hl) (regRowsFold_statsOk j _ reg hst)

/-- Projection of the per-row fold at a non-statistics pending key: the
definition's `'filling'` evolves by the skip-on-error reference
semantics. -/
lemma dictGet_regRowsFold (j : Nat) (k : String) (hk : k ≠ statsName) :
    ∀ (rows : List Row) (reg : Registry) (hd : HistoDef) (f : HMap),
      dictGet reg k = some hd → hd.filling = some f →
      dictGet (regRowsFold j rows reg) k
        = some { hd with filling := some (fillRowsSkip hd.fill rows f) } := by
  intro rows
  induction rows with
  | nil =>
      intro reg hd f hg hf
      cases hd with
      | mk i fl lv fd fg =>
          simp only [regRowsFold, List.foldl_nil, fillRowsSkip, hg]
          simp at hf
          rw [hf]
  | cons row rows ih =>
      intro reg hd f hg hf
      have h1 : dictGet (reg.map (parEntryStep j row)) k
          = some ((parEntryStep j row (k, hd)).2) := by
        rw [dictGet_map_entry (parEntryStep j row)
          (fun kd => (parEntryStep_preserves j row kd).1) k reg, hg]
        rfl
      have h2 : (parEntryStep j row (k, hd)).2
          = { hd with filling := some (match hd.fill (.inr row) f with
              | .ok a => a
              | .error _ => f) } := by
        unfold parEntryStep parStepDef
        rw [if_neg hk]
        simp only [hf]
        cases hr : hd.fill (.inr row) f with
        | ok f' => rfl
        | error e =>
            cases hd with
            | mk i fl lv fd fg =>
                simp at hf
                rw [hf]
  -- the error branch keeps the definition, whose filling is still `some f`
      have h3 := ih (reg.map (parEntryStep j row))
        { hd with filling := some (match hd.fill (.inr row) f with
            | .ok a => a
            | .error _ => f) }
        (match hd.fill (.inr row) f with
          | .ok a => a
          | .error _ => f)
        (by rw [h1, h2]) rfl
      simpa [regRowsFold, fillRowsSkip] using h3

/-- Projection of the worker fold at a non-statistics pending key: the
chunk's full row stream is applied with raising applications skipped. -/
lemma dictGet_playerFold (chunk : Nat × Nat) (k : String) (hk : k ≠ statsName) :
    ∀ (infiles : List (List Row)) (j : Nat) (reg : Registry) (hd : HistoDef) (f : HMap),
      dictGet reg k = some hd → hd.filling = some f →
      dictGet (playerFold chunk infiles j reg) k
        = some { hd with filling := some (fillRowsSkip hd.fill
            (rowsOfChunk infiles chunk) f) } := by
  intro infiles
  induction infiles with
  | nil =>
      intro j reg hd f hg hf
      cases hd with
      | mk i fl lv fd fg =>
          simp only [playerFold, rowsOfChunk, List.map_nil, List.flatten_nil,
            fillRowsSkip, List.foldl_nil, hg]
          simp at hf
          rw [hf]
  | cons file rest ih =>
      intro j reg hd f hg hf
      have h1 := dictGet_regRowsFold j k hk
        ((chunkRows file chunk).map fun n => file.getD n []) reg hd f hg hf
      have h2 := ih (j + 1) _
        { hd with filling := some (fillRowsSkip hd.fill
            ((chunkRows file chunk).map fun n => file.getD n []) f) }
        (fillRowsSkip hd.fill ((chunkRows file chunk).map fun n => file.getD n []) f)
        h1 rfl
      simp only [playerFold]
      rw [h2]
      have h3 : rowsOfChunk (file :: rest) chunk
          = ((chunkRows file chunk).map fun n => file.getD n [])
            ++ rowsOfChunk rest chunk := by
        simp [rowsOfChunk]
      rw [h3]
      unfold fillRowsSkip
      rw [List.foldl_append]

/-- A set that fails the cache probe has at least one histogram. -/
lemma setIsCached_false_pos (cache : List (String × Histo)) (hd : HistoDef)
    (h : setIsCached cache hd = false) : 0 < (hd.init ()).length := by
  by_contra hlen
  have hnil : hd.init () = [] := List.length_eq_zero.mp (by omega)
  unfold setIsCached at h
  rw [hnil] at h
  simp at h

/-- Dict assignment walks past a head with a different key. -/
lemma dictSet_cons_ne {α : Type} (k' k : String) (v' v : α)
    (d : List (String × α)) (h : k' ≠ k) :
    dictSet ((k', v') :: d) k v = (k', v') :: dictSet d k v := by
  simp [dictSet, h]

/-- In sequential mode, a pending first definition whose fill routine
raises on every record makes `fill_histograms` abort at the first visited
row with the exception propagating out. -/
lemma seq_fill_propagates (s : TState) (m r : Nat) (c : Int) (a : Nat)
    (k0 : String) (hd0 : HistoDef) (rest : Registry)
    (hreg : s.histodefs = (k0, hd0) :: rest)
    (hdask : s.daskOn = false)
    (hk0 : k0 ≠ statsName)
    (hnc : setIsCached s.cache hd0 = false)
    (herr : ∀ (row : Row) (g : HMap), hd0.fill (.inr row) g = .error ())
    (hlv : leavesPresent (probedR s).1 = true)
    (hm : 0 < m) :
    (fill_histograms s m r c a).result = .error () ∧
    (fill_histograms s m r c a).visits = [r] := by
  have hreg1 : regWithStats s
      = (k0, hd0) :: dictSet rest statsName (statsDefFor s.chain.length) := by
    rw [regWithStats_eq, hreg]
    exact dictSet_cons_ne k0 statsName hd0 _ rest hk0
  obtain ⟨tail2, ntail, htail⟩ :
      ∃ t n, probeR s.cache (dictSet rest statsName (statsDefFor s.chain.length))
        = (t, n) := ⟨_, _, rfl⟩
  have hp0 : probeDef s.cache hd0
      = ({ hd0 with filled := [], filling := some (hd0.init ()) },
         (hd0.init ()).length) := by
    unfold probeDef
    rw [if_neg (by simp [hnc])]
  have hprobe : probedR s
      = ((k0, { hd0 with filled := [], filling := some (hd0.init ()) }) :: tail2,
         (hd0.init ()).length + ntail) := by
    unfold probedR
    rw [hreg1]
    simp only [probeR, hp0, htail]
  have hlen : 0 < (hd0.init ()).length := setIsCached_false_pos s.cache hd0 hnc
  have hlv2 : leavesPresent
      ((k0, { hd0 with filled := [], filling := some (hd0.init ()) }) :: tail2)
        = true := by
    rw [hprobe] at hlv
    exact hlv
  have hads : ∀ cur, applyDefsSeq cur
      ((k0, { hd0 with filled := [], filling := some (hd0.init ()) }) :: tail2)
        = ((k0, { hd0 with filled := [], filling := some (hd0.init ()) }) :: tail2,
           true) := by
    intro cur
    have hfe : hd0.fill (.inr (curRow cur)) (hd0.init ()) = .error () := herr _ _
    simp only [applyDefsSeq]
    rw [if_neg hk0, hfe]
  obtain ⟨mm, rfl⟩ : ∃ mm, m = mm + 1 := ⟨m - 1, by omega⟩
  have hrows : List.range' r (mm + 1) = r :: List.range' (r + 1) mm := by
    simpa using List.range'_succ r mm 1
  have hscan : seqScanRows s.chain (r :: List.range' (r + 1) mm)
      ⟨(k0, { hd0 with filled := [], filling := some (hd0.init ()) }) :: tail2, none⟩
      = ([r],
         ⟨(k0, { hd0 with filled := [], filling := some (hd0.init ()) }) :: tail2,
          match fileOfRow s.chain r with
          | some p => some p
          | none => none⟩,
         true) := by
    simp only [seqScanRows]
    rw [hads _]
    simp
  have hnt : 0 < (hd0.init ()).length + ntail := by omega
  simp only [fill_histograms, hprobe]
  rw [if_pos ⟨hnt, hdask⟩, if_pos hlv2, hrows, hscan]
  exact ⟨rfl, rfl⟩

/-- C3 (amended).  The error policy actually implemented: in sequential
mode there is no try/except around the fill calls, so a fill routine
raising at the first visited record propagates out of `fill_histograms`
(first conjunct); in parallel mode `dask_treeplayer` wraps each ordinary
fill application in try/except, so for every pending non-statistics
definition the worker's result equals the skip-on-error reference
semantics — each raising application is skipped, the scan continues with
the next definition and record, and no exception escapes the worker
(second conjunct; `dask_treeplayer` is total by construction). -/
theorem C3_error_policy_theorem :
    (∀ (s : TState) (m r : Nat) (c : Int) (a : Nat)
        (k0 : String) (hd0 : HistoDef) (rest : Registry),
        s.histodefs = (k0, hd0) :: rest → s.daskOn = false → k0 ≠ statsName →
        setIsCached s.cache hd0 = false →
        (∀ (row : Row) (g : HMap), hd0.fill (.inr row) g = .error ()) →
        leavesPresent (probedR s).1 = true → 0 < m →
        (fill_histograms s m r c a).result = .error () ∧
        (fill_histograms s m r c a).visits = [r]) ∧
    (∀ (chunk : Nat × Nat) (infiles : List (List Row)) (j : Nat) (reg : Registry)
        (k : String) (hd : HistoDef) (f : HMap),
        chunk.2 ≠ 0 → leavesPresent reg = true → StatsOk reg →
        dictGet reg k = some hd → hd.filling = some f → k ≠ statsName →
        dictGet (dask_treeplayer j infiles reg chunk) k
          = some { hd with filling := some (fillRowsSkip hd.fill
              (rowsOfChunk infiles chunk) f) }) := by
  constructor
  · intro s m r c a k0 hd0 rest hreg hdask hk0 hnc herr hlv hm
    exact seq_fill_propagates s m r c a k0 hd0 rest hreg hdask hk0 hnc herr hlv hm
  · intro chunk infiles j reg k hd f hc hl hst hg hf hk
    rw [dask_treeplayer_eq chunk hc infiles j reg hl hst]
    exact dictGet_playerFold chunk k hk infiles j reg hd f hg hf

/-- A session whose single user definition raises on every record. -/
def sCrash : TState :=
  { histodefs := [("u",
      { init := okInit, fill := fun _ _ => .error (), leaves := some ["x"],
        filled := [], filling := none })],
    cache := [], chain := [[[7]]], daskOn := false }

/-- A pending worker-side definition whose fill routine raises on every
record. -/
def hdW : HistoDef :=
  { init := okInit, fill := fun _ _ => .error (), leaves := some ["x"],
    filled := [], filling := some [("a", ⟨"a", .h1 0 []⟩)] }

/-- A worker registry holding only the raising definition. -/
def regW : Registry := [("u", hdW)]

/-- Witness for C3: the sequential abort and the parallel skip-and-continue
evaluated at concrete inputs (the worker scans two rows, both raising
applications are skipped, and the accumulator comes back unchanged by
`fillRowsSkip`). -/
theorem C3_error_policy_witness :
    ((fill_histograms sCrash 1 0 1 100).result = .error () ∧
     (fill_histograms sCrash 1 0 1 100).visits = [0]) ∧
    dictGet (dask_treeplayer 0 [[[1], [2]]] regW (0, 1)) "u"
      = some { hdW with filling := some (fillRowsSkip hdW.fill
          (rowsOfChunk [[[1], [2]]] (0, 1)) [("a", ⟨"a", .h1 0 []⟩)]) } := by
  constructor
  · exact C3_error_policy_theorem.1 sCrash 1 0 1 100 "u" _ [] rfl rfl
      (by decide) (by decide) (fun _ _ => rfl) (by decide) (by decide)
  · refine C3_error_policy_theorem.2 (0, 1) [[[1], [2]]] 0 regW "u" hdW
      [("a", ⟨"a", .h1 0 []⟩)] (by decide) (by decide) ?_ rfl rfl (by decide)
    intro kd hkd hks
    have hkd' : kd = ("u", hdW) := by
      have hmem : kd ∈ [("u", hdW)] := hkd
      simpa using hmem
    subst hkd'
    exact absurd hks (by decide)

/-- Counterexample to C3 as stated: in sequential mode the raising fill
routine's exception propagates out of `fill_histograms` — the call returns
no count at all. -/
theorem C3_error_policy_counterexample :
    (fill_histograms sCrash 1 0 1 100).result = .error () ∧
    ¬ ∃ nn : Nat, (fill_histograms sCrash 1 0 1 100).result = .ok nn := by
  refine ⟨rfl, ?_⟩
  rintro ⟨nn, hnn⟩
  rw [show (fill_histograms sCrash 1 0 1 100).result = .error () from rfl] at hnn
  exact Except.noConfusion hnn

end Jupyroot
